import Mathlib

/-!
Verification of the COO → CSR/CSC conversion core of tch-geometric
(`src/data/storage.rs`): the `ind2ptr` pointer-construction routine, the
argsort-based `TryFrom<&CooGraphStorage>` conversion and the borrowed
`SparseGraph` view conversion, modelled shallowly over lists of integers.
-/

namespace Storage

/-- Integer element kinds of tch tensors used by this module:
`Int` is the 32-bit and `Int64` the 64-bit integer kind. -/
inductive Kind
  | Int
  | Int64
deriving DecidableEq, Repr

/-- Device on which a tensor's memory resides. -/
inductive Device
  | Cpu
  | Cuda (idx : Nat)
deriving DecidableEq, Repr

/-- Shallow model of a 1-D integer `tch::Tensor`: element kind, device and
contents. Tensors in this development are contiguous, so the contents are a
plain list of element values. -/
structure Tensor where
  kind : Kind
  device : Device
  data : List Int
deriving DecidableEq, Repr

/-- Modelled from the spec: error kinds of the tensor-engine boundary
(spec sections 6 and 7) — `DeviceMismatch` for data that is not resident in
directly addressable memory, `BufferLayoutError` for a slice view over a
buffer whose element kind or layout does not match the requested integer
width. The concrete error enum lives in `utils/tensor.rs`, outside `src/`. -/
inductive TensorConversionError
  | DeviceMismatch
  | BufferLayoutError
deriving DecidableEq, Repr

/-- Abort conditions of the Rust code that are not error values: a
bounds-checked slice read or write with an out-of-range index, and a
negative allocation size. -/
inductive Panic
  | negSize
  | readOOB
  | writeOOB
deriving DecidableEq, Repr

/-- Result of running a fallible, possibly aborting computation. -/
inductive Outcome (α : Type)
  | ok (a : α)
  | error (e : TensorConversionError)
  | panic (p : Panic)
deriving DecidableEq, Repr

instance instDecidableEqExcept {ε α : Type} [DecidableEq ε] [DecidableEq α] :
    DecidableEq (Except ε α)
  | .ok a, .ok b => decidable_of_iff (a = b) (by simp)
  | .ok _, .error _ => .isFalse (by simp)
  | .error _, .ok _ => .isFalse (by simp)
  | .error e, .error f => decidable_of_iff (e = f) (by simp)

/-- An output buffer as allocated by `Tensor::empty`: a fixed-length block
whose slots may still be uninitialized (`none`). -/
abbrev Buf := List (Option Int)

/-- Rust `v as usize` on an `i64` value: nonnegative values map to
themselves, negative values wrap around to huge numbers. -/
def toUsize (v : Int) : Nat := (v % (2 : Int) ^ 64).toNat

/-- Bounds-checked write `buf[i] = v`; Rust slice indexing aborts when the
index is out of bounds. -/
def writeAt (buf : Buf) (i : Nat) (v : Int) : Except Panic Buf :=
  if i < buf.length then .ok (buf.set i (some v)) else .error .writeOOB

/-- Bounds-checked read `a[i]` of the key buffer. -/
def readAt (a : List Int) (i : Nat) : Except Panic Int :=
  if h : i < a.length then .ok (a.get ⟨i, h⟩) else .error .readOOB

/-- Write `v` into the `len` consecutive slots starting at `start`; this is
the shape of every write loop in `ind2ptr`. Sequencing with `Except.bind`
models the abort-on-panic control flow. -/
def writeRun (buf : Buf) (start len : Nat) (v : Int) : Except Panic Buf :=
  match len with
  | 0 => .ok buf
  | n + 1 => (writeAt buf start v).bind (fun b => writeRun b (start + 1) n v)

/-- The middle loop of `ind2ptr` (storage.rs lines 87-94): at iteration `i`
with running position `idx`, read `next_idx = ind_data[i+1] as usize` and
set `out_data[x + 1] = i + 1` for `x` in `idx..next_idx`; `fuel` counts the
remaining iterations (`numel - 1` at entry, so `i + fuel = numel - 1`
throughout). -/
def midLoop (a : List Int) : Nat → Nat → Buf → Nat → Except Panic Buf
  | _idx, _i, buf, 0 => .ok buf
  | idx, i, buf, fuel + 1 =>
    (readAt a (i + 1)).bind (fun v =>
      (writeRun buf (idx + 1) (toUsize v - idx) ((i : Int) + 1)).bind (fun b =>
        midLoop a (toUsize v) (i + 1) b fuel))

/-- The trailing loop of `ind2ptr` (storage.rs lines 96-98): write
`out_data[i as usize] = numel` for `i` in `ind_data[numel-1]+1 .. m+1`;
`s` is the current value of `i` and `n` the number of remaining
iterations. -/
def loop3Aux (buf : Buf) (s : Int) (v : Int) : Nat → Except Panic Buf
  | 0 => .ok buf
  | n + 1 => (writeAt buf (toUsize s) v).bind (fun b => loop3Aux b (s + 1) v n)

/-- The body of `ind2ptr` after the device and layout checks
(storage.rs lines 73-100): allocate an uninitialized buffer of length
`m + 1`, return `m + 1` zeros when the input is empty, and otherwise run
the three write loops over the key data. -/
def ind2ptrCore (a : List Int) (m : Int) : Except Panic Buf :=
  if a.length = 0 then .ok (List.replicate (m + 1).toNat (some 0))
  else
    (readAt a 0).bind (fun a0 =>
      (writeRun (List.replicate (m + 1).toNat none) 0 ((a0 + 1).toNat) 0).bind (fun b1 =>
        (midLoop a (toUsize a0) 0 b1 (a.length - 1)).bind (fun b2 =>
          (readAt a (a.length - 1)).bind (fun alast =>
            loop3Aux b2 (alast + 1) (a.length : Int) (m + 1 - (alast + 1)).toNat))))

/-- Model of `ind2ptr` (storage.rs lines 67-101): check that the input
lives on the CPU, allocate the output with the input's kind and device
(`Tensor::empty` aborts on a negative length), view the input as an `i64`
slice — this is where a non-64-bit input is rejected, the element type is
fixed at line 74 — and run the pointer construction. A slot that the
algorithm never writes holds arbitrary memory; the returned tensor exposes
such a slot as `0`, and every theorem below about slot values first
establishes through `ind2ptrCore`'s `Option` layer that the slot was
actually written. -/
def ind2ptr (ind : Tensor) (m : Int) : Outcome Tensor :=
  if ind.device ≠ Device.Cpu then .error .DeviceMismatch
  else if m + 1 < 0 then .panic .negSize
  else if ind.kind ≠ Kind.Int64 then .error .BufferLayoutError
  else
    match ind2ptrCore ind.data m with
    | .error p => .panic p
    | .ok buf => .ok ⟨ind.kind, ind.device, buf.map (fun o => o.getD 0)⟩

/-- Model of `CooGraphStorage` (storage.rs lines 11-31): the `row_col`
tensor of shape `2 × E` is represented by its two rows — which therefore
have equal length by construction — together with its element kind and
device; `size` is the declared `(num_rows, num_cols)`. -/
structure CooGraphStorage where
  kind : Kind
  device : Device
  rowData : List Int
  colData : List Int
  size : Int × Int
  hlen : rowData.length = colData.length

/-- The `row()` accessor, `row_col.select(0, 0)`. -/
def CooGraphStorage.row (s : CooGraphStorage) : Tensor :=
  ⟨s.kind, s.device, s.rowData⟩

/-- The `col()` accessor, `row_col.select(0, 1)`. -/
def CooGraphStorage.col (s : CooGraphStorage) : Tensor :=
  ⟨s.kind, s.device, s.colData⟩

/-- Model of `SparseGraphStorage` (storage.rs lines 33-41): pointer tensor,
index tensor and optional permutation; the permutation tensor is
represented by its list of positions. -/
structure SparseGraphStorage where
  ptrs : Tensor
  indices : Tensor
  perm : Option (List Nat)
deriving DecidableEq, Repr

/-- Orientation marker corresponding to the `Csr` / `Csc` type
parameters. -/
inductive SparseGraphType
  | Csr
  | Csc
deriving DecidableEq, Repr

/-- Bit width of an element kind. -/
def Kind.bits : Kind → Nat
  | .Int => 32
  | .Int64 => 64

/-- Signed wraparound of tch integer arithmetic at the element width of
the tensor's kind. -/
def wrapK (k : Kind) (x : Int) : Int :=
  (x + 2 ^ (k.bits - 1)) % 2 ^ k.bits - 2 ^ (k.bits - 1)

/-- Modelled from the spec: the argsort-ascending primitive of the tensor
engine (spec section 6) — returns a permutation of the positions
`0 .. n-1` that orders the keys ascending. Implemented by insertion sort;
the spec states that a stable or an unstable sort are both acceptable
here, so any correct ascending sort-permutation is an admissible model. -/
def argsort (keys : List Int) : List Nat :=
  List.insertionSort (fun i j => keys.getD i 0 ≤ keys.getD j 0) (List.range keys.length)

/-- Index select `t.i(&perm)` with a list of positions. -/
def indexSelect (l : List Int) (perm : List Nat) : List Int :=
  perm.map (fun i => l.getD i 0)

/-- Common body of the two `TryFrom<&CooGraphStorage>` branches
(storage.rs lines 110-125): sort by the linearized key
`group * otherDim + paired` (computed in tensor arithmetic at the element
width of the store's kind), apply the permutation to the group keys, build
the pointers via `ind2ptr` with `numGroups` groups, keep the permuted
paired coordinates as the index tensor and retain the permutation. -/
def cooPipeline (k : Kind) (d : Device) (group paired : List Int)
    (otherDim numGroups : Int) : Outcome SparseGraphStorage :=
  let keys := List.zipWith (fun g p => wrapK k (g * otherDim + p)) group paired
  let perm := argsort keys
  match ind2ptr ⟨k, d, indexSelect group perm⟩ numGroups with
  | .ok ptrs => .ok ⟨ptrs, ⟨k, d, indexSelect paired perm⟩, some perm⟩
  | .error e => .error e
  | .panic p => .panic p

/-- Model of `TryFrom<&CooGraphStorage> for SparseGraphStorage<Ty>`
(storage.rs lines 106-127): `Csr` groups by row with key
`row * size.1 + col` and `size.0` groups, `Csc` groups by column with key
`col * size.0 + row` and `size.1` groups. -/
def tryFromCoo (ty : SparseGraphType) (s : CooGraphStorage) :
    Outcome SparseGraphStorage :=
  match ty with
  | .Csr => cooPipeline s.kind s.device s.rowData s.colData s.size.2 s.size.1
  | .Csc => cooPipeline s.kind s.device s.colData s.rowData s.size.1 s.size.2

/-- Model of the borrowed `SparseGraph` view: the two flat slices. -/
structure SparseGraph where
  ptrs : List Int
  indices : List Int
deriving DecidableEq, Repr

/-- Modelled from the spec: `try_tensor_to_slice::<T>` of the tensor
engine (spec section 6) — view a tensor as a flat slice of the requested
integer kind, failing with the layout error when the element kind does not
match; tensors of this model are contiguous. -/
def tryTensorToSlice (k : Kind) (t : Tensor) :
    Except TensorConversionError (List Int) :=
  if t.kind = k then .ok t.data else .error .BufferLayoutError

/-- Model of `TryFrom<&SparseGraphStorage<Ty>> for SparseGraph` (storage.rs
lines 129-140): `pk` and `ik` are the element kinds of the chosen `Ptr`
and `Ix` integer types; both 32-bit and 64-bit instantiations exist. -/
def sparseGraphTryFrom (pk ik : Kind) (s : SparseGraphStorage) :
    Except TensorConversionError SparseGraph :=
  match tryTensorToSlice pk s.ptrs with
  | .error e => .error e
  | .ok ps =>
    match tryTensorToSlice ik s.indices with
    | .error e => .error e
    | .ok ixs => .ok ⟨ps, ixs⟩

/-- Number of keys strictly below `x`; this is the value the spec assigns
to `pointer[g]` for `x = g`. -/
def cntBelow (a : List Int) (x : Int) : Nat :=
  a.countP (fun v => decide (v < x))

/-- Non-strict lexicographic order on (group key, paired key) pairs; this
is the ascending edge order the spec attributes to the linearized sort
key. -/
def lexLe (x y : Int × Int) : Prop :=
  x.1 < y.1 ∨ (x.1 = y.1 ∧ x.2 ≤ y.2)

/-- Sanity check mirroring the repository's `test_ind2ptr`. -/
theorem ind2ptrCore_repo_test :
    ind2ptrCore [3, 3, 3, 4, 4, 7, 7, 8, 8] 10 =
      .ok ([0, 0, 0, 0, 3, 5, 5, 5, 7, 9, 9].map some) := by decide

/-! Properties of the write primitives. -/

theorem toUsize_of_nonneg {v : Int} (h1 : 0 ≤ v) (h2 : v < 2 ^ 64) :
    toUsize v = v.toNat := by
  unfold toUsize
  rw [Int.emod_eq_of_lt h1 h2]

theorem getD_set (buf : Buf) (i p : Nat) (x : Option Int) :
    (buf.set i x).getD p none =
      if i = p ∧ i < buf.length then x else buf.getD p none := by
  rw [List.getD_eq_getElem?_getD, List.getD_eq_getElem?_getD, List.getElem?_set]
  by_cases h1 : i = p
  · subst h1
    by_cases h2 : i < buf.length
    · simp [h2]
    · simp [h2, List.getElem?_eq_none (by omega : buf.length ≤ i)]
  · simp [h1]

theorem ok_bind {α β : Type} (x : α) (f : α → Except Panic β) :
    (Except.ok x : Except Panic α).bind f = f x := rfl

theorem bind_eq_ok {α β : Type} {x : Except Panic α} {f : α → Except Panic β}
    {b : β} : x.bind f = .ok b ↔ ∃ a, x = .ok a ∧ f a = .ok b := by
  cases x <;> simp [Except.bind]

theorem bind_eq_error {α β : Type} {x : Except Panic α}
    {f : α → Except Panic β} {e : Panic} :
    x.bind f = .error e ↔ x = .error e ∨ ∃ a, x = .ok a ∧ f a = .error e := by
  cases x <;> simp [Except.bind]

theorem writeRun_spec : ∀ (n s : Nat) (buf : Buf) (v : Int), s + n ≤ buf.length →
    ∃ b, writeRun buf s n v = .ok b ∧ b.length = buf.length ∧
      ∀ p : Nat, b.getD p none =
        if s ≤ p ∧ p < s + n then some v else buf.getD p none := by
  intro n
  induction n with
  | zero =>
    intro s buf v _
    refine ⟨buf, rfl, rfl, fun p => ?_⟩
    rw [if_neg]
    omega
  | succ n ih =>
    intro s buf v hle
    have hs : s < buf.length := by omega
    have hw : writeAt buf s v = .ok (buf.set s (some v)) := by
      unfold writeAt
      rw [if_pos hs]
    obtain ⟨b, hb, hblen, hbp⟩ := ih (s + 1) (buf.set s (some v)) v
      (by rw [List.length_set]; omega)
    refine ⟨b, ?_, by rw [hblen, List.length_set], fun p => ?_⟩
    · unfold writeRun
      rw [hw, ok_bind]
      exact hb
    · rw [hbp p, getD_set]
      by_cases h1 : s + 1 ≤ p ∧ p < s + 1 + n
      · rw [if_pos h1, if_pos (by omega)]
      · rw [if_neg h1]
        by_cases h2 : s = p
        · subst h2
          rw [if_pos ⟨rfl, hs⟩, if_pos (by omega)]
        · rw [if_neg (by tauto), if_neg (by omega)]

theorem writeRun_ok_length : ∀ {n s : Nat} {buf : Buf} {v : Int} {b : Buf},
    writeRun buf s n v = .ok b → b.length = buf.length := by
  intro n
  induction n with
  | zero =>
    intro s buf v b h
    injection h with h
    rw [← h]
  | succ n ih =>
    intro s buf v b h
    unfold writeRun at h
    rw [bind_eq_ok] at h
    obtain ⟨b0, hw, h⟩ := h
    unfold writeAt at hw
    split at hw
    · injection hw with hw
      rw [ih h, ← hw, List.length_set]
    · simp at hw

theorem writeRun_error : ∀ {n s : Nat} {buf : Buf} {v : Int} {p : Panic},
    writeRun buf s n v = .error p → p = .writeOOB := by
  intro n
  induction n with
  | zero =>
    intro s buf v p h
    simp [writeRun] at h
  | succ n ih =>
    intro s buf v p h
    unfold writeRun at h
    rw [bind_eq_error] at h
    rcases h with h | ⟨b0, hw, h⟩
    · unfold writeAt at h
      split at h
      · simp at h
      · injection h with h
        rw [← h]
    · exact ih h

theorem loop3Aux_ok_length : ∀ {n : Nat} {s v : Int} {buf b : Buf},
    loop3Aux buf s v n = .ok b → b.length = buf.length := by
  intro n
  induction n with
  | zero =>
    intro s v buf b h
    injection h with h
    rw [← h]
  | succ n ih =>
    intro s v buf b h
    unfold loop3Aux at h
    rw [bind_eq_ok] at h
    obtain ⟨b0, hw, h⟩ := h
    unfold writeAt at hw
    split at hw
    · injection hw with hw
      rw [ih h, ← hw, List.length_set]
    · simp at hw

theorem loop3Aux_error : ∀ {n : Nat} {s v : Int} {buf : Buf} {p : Panic},
    loop3Aux buf s v n = .error p → p = .writeOOB := by
  intro n
  induction n with
  | zero =>
    intro s v buf p h
    simp [loop3Aux] at h
  | succ n ih =>
    intro s v buf p h
    unfold loop3Aux at h
    rw [bind_eq_error] at h
    rcases h with h | ⟨b0, hw, h⟩
    · unfold writeAt at h
      split at h
      · simp at h
      · injection h with h
        rw [← h]
    · exact ih h

theorem loop3Aux_spec : ∀ (n : Nat) (s : Int) (buf : Buf) (v : Int),
    0 ≤ s → s + (n : Int) ≤ 2 ^ 64 → s.toNat + n ≤ buf.length →
    ∃ b, loop3Aux buf s v n = .ok b ∧ b.length = buf.length ∧
      ∀ p : Nat, b.getD p none =
        if s ≤ (p : Int) ∧ (p : Int) < s + (n : Int) then some v
        else buf.getD p none := by
  intro n
  induction n with
  | zero =>
    intro s buf v _ _ _
    refine ⟨buf, rfl, rfl, fun p => ?_⟩
    rw [if_neg]
    push_cast
    omega
  | succ n ih =>
    intro s buf v hs0 hs64 hsl
    have htu : toUsize s = s.toNat := toUsize_of_nonneg hs0 (by push_cast at hs64; omega)
    have hs : toUsize s < buf.length := by omega
    have hw : writeAt buf (toUsize s) v = .ok (buf.set (toUsize s) (some v)) := by
      unfold writeAt
      rw [if_pos hs]
    obtain ⟨b, hb, hblen, hbp⟩ := ih (s + 1) (buf.set (toUsize s) (some v)) v
      (by omega) (by push_cast at hs64 ⊢; omega)
      (by rw [List.length_set]; omega)
    refine ⟨b, ?_, by rw [hblen, List.length_set], fun p => ?_⟩
    · unfold loop3Aux
      rw [hw, ok_bind]
      exact hb
    · rw [hbp p, getD_set, htu]
      by_cases h1 : s + 1 ≤ (p : Int) ∧ (p : Int) < s + 1 + (n : Int)
      · rw [if_pos h1, if_pos (by push_cast at h1 ⊢; omega)]
      · rw [if_neg h1]
        by_cases h2 : s.toNat = p
        · rw [if_pos ⟨h2, by omega⟩, if_pos (by push_cast; omega)]
        · rw [if_neg (by tauto), if_neg (by push_cast at h1 ⊢; omega)]

theorem midLoop_ok_length : ∀ {a : List Int} {fuel idx i : Nat} {buf b : Buf},
    midLoop a idx i buf fuel = .ok b → b.length = buf.length := by
  intro a fuel
  induction fuel with
  | zero =>
    intro idx i buf b h
    injection h with h
    rw [← h]
  | succ fuel ih =>
    intro idx i buf b h
    unfold midLoop at h
    rw [bind_eq_ok] at h
    obtain ⟨v, _hv, h⟩ := h
    rw [bind_eq_ok] at h
    obtain ⟨b0, hw, h⟩ := h
    rw [ih h, writeRun_ok_length hw]

theorem midLoop_error : ∀ {a : List Int} {fuel idx i : Nat} {buf : Buf} {p : Panic},
    i + fuel < a.length → midLoop a idx i buf fuel = .error p → p = .writeOOB := by
  intro a fuel
  induction fuel with
  | zero =>
    intro idx i buf p _ h
    simp [midLoop] at h
  | succ fuel ih =>
    intro idx i buf p hlt h
    unfold midLoop at h
    rw [bind_eq_error] at h
    rcases h with h | ⟨v, _hv, h⟩
    · unfold readAt at h
      rw [dif_pos (by omega)] at h
      simp at h
    · rw [bind_eq_error] at h
      rcases h with h | ⟨b0, hw, h⟩
      · exact writeRun_error h
      · exact ih (by omega) h

theorem ind2ptrCore_ok_length {a : List Int} {m : Int} {buf : Buf}
    (h : ind2ptrCore a m = .ok buf) : buf.length = (m + 1).toNat := by
  unfold ind2ptrCore at h
  split at h
  · injection h with h
    rw [← h, List.length_replicate]
  · rw [bind_eq_ok] at h
    obtain ⟨a0, _h0, h⟩ := h
    rw [bind_eq_ok] at h
    obtain ⟨b1, h1, h⟩ := h
    rw [bind_eq_ok] at h
    obtain ⟨b2, h2, h⟩ := h
    rw [bind_eq_ok] at h
    obtain ⟨alast, _h3, h⟩ := h
    rw [loop3Aux_ok_length h, midLoop_ok_length h2,
      writeRun_ok_length h1, List.length_replicate]

theorem ind2ptrCore_error {a : List Int} {m : Int} {p : Panic}
    (h : ind2ptrCore a m = .error p) : p = .writeOOB := by
  unfold ind2ptrCore at h
  split at h
  · simp at h
  · rename_i hne
    have hlen : 0 < a.length := by
      rcases Nat.eq_zero_or_pos a.length with h0 | h0
      · exact absurd h0 hne
      · exact h0
    rw [bind_eq_error] at h
    rcases h with h | ⟨a0, _h0, h⟩
    · unfold readAt at h
      rw [dif_pos hlen] at h
      simp at h
    · rw [bind_eq_error] at h
      rcases h with h | ⟨b1, _h1, h⟩
      · exact writeRun_error h
      · rw [bind_eq_error] at h
        rcases h with h | ⟨b2, _h2, h⟩
        · exact midLoop_error (by omega) h
        · rw [bind_eq_error] at h
          rcases h with h | ⟨alast, _h3, h⟩
          · unfold readAt at h
            rw [dif_pos (by omega)] at h
            simp at h
          · exact loop3Aux_error h

/-! Counting lemmas for sorted key sequences. -/

theorem sorted_getD_le {a : List Int} (hs : List.Sorted (· ≤ ·) a)
    {i j : Nat} (hij : i ≤ j) (hj : j < a.length) :
    a.getD i 0 ≤ a.getD j 0 := by
  rcases Nat.eq_or_lt_of_le hij with h | h
  · rw [h]
  · rw [List.getD_eq_getElem a 0 (by omega), List.getD_eq_getElem a 0 hj]
    exact List.pairwise_iff_getElem.mp hs i j (by omega) hj h

theorem sorted_le_last {a : List Int} (hs : List.Sorted (· ≤ ·) a)
    (h0 : 0 < a.length) : ∀ v ∈ a, v ≤ a.getD (a.length - 1) 0 := by
  intro v hv
  obtain ⟨j, hj, rfl⟩ := List.mem_iff_getElem.mp hv
  rw [← List.getD_eq_getElem a 0 hj]
  exact sorted_getD_le hs (by omega) (by omega)

theorem cntBelow_le_length (a : List Int) (x : Int) :
    cntBelow a x ≤ a.length :=
  List.countP_le_length _

theorem cntBelow_eq_length {a : List Int} {x : Int} (h : ∀ v ∈ a, v < x) :
    cntBelow a x = a.length :=
  List.countP_eq_length.mpr (fun v hv => by simpa using h v hv)

theorem lt_cntBelow_of_getD_lt : ∀ {a : List Int}, List.Sorted (· ≤ ·) a →
    ∀ {i : Nat}, i < a.length → ∀ {x : Int}, a.getD i 0 < x →
    i < cntBelow a x := by
  intro a
  induction a with
  | nil =>
    intro _ i hi
    simp at hi
  | cons v t ih =>
    intro hs i hi x hx
    rw [List.sorted_cons] at hs
    unfold cntBelow at *
    rw [List.countP_cons]
    cases i with
    | zero =>
      rw [List.getD_cons_zero] at hx
      simp [hx]
    | succ i =>
      rw [List.getD_cons_succ] at hx
      have hit : i < t.length := by simpa using hi
      have hvx : v < x := by
        have hmem : t.getD i 0 ∈ t := by
          rw [List.getD_eq_getElem t 0 hit]
          exact List.getElem_mem hit
        exact lt_of_le_of_lt (hs.1 _ hmem) hx
      have := ih hs.2 hit hx
      simp [hvx]
      omega

theorem cntBelow_le_of_le_getD : ∀ {a : List Int}, List.Sorted (· ≤ ·) a →
    ∀ {i : Nat}, i < a.length → ∀ {x : Int}, x ≤ a.getD i 0 →
    cntBelow a x ≤ i := by
  intro a
  induction a with
  | nil =>
    intro _ i hi
    simp at hi
  | cons v t ih =>
    intro hs i hi x hx
    rw [List.sorted_cons] at hs
    unfold cntBelow at *
    rw [List.countP_cons]
    cases i with
    | zero =>
      rw [List.getD_cons_zero] at hx
      have hv : ¬ (v < x) := by omega
      have ht : List.countP (fun u => decide (u < x)) t = 0 :=
        List.countP_eq_zero.mpr (fun u hu => by
          simp only [decide_eq_true_eq]
          have := hs.1 u hu
          omega)
      simp [hv, ht]
    | succ i =>
      rw [List.getD_cons_succ] at hx
      have hit : i < t.length := by simpa using hi
      have := ih hs.2 hit hx
      by_cases hv : v < x <;> simp [hv] <;> omega

theorem cntBelow_between {a : List Int} (hs : List.Sorted (· ≤ ·) a)
    {i : Nat} (hi : i + 1 < a.length) {x : Int}
    (h1 : a.getD i 0 < x) (h2 : x ≤ a.getD (i + 1) 0) :
    cntBelow a x = i + 1 := by
  have hlo := lt_cntBelow_of_getD_lt hs (by omega) h1
  have hhi := cntBelow_le_of_le_getD hs hi h2
  omega

/-! Exact characterization of `ind2ptr` on sorted in-range keys. -/

theorem midLoop_sorted {a : List Int} {m : Int}
    (hs : List.Sorted (· ≤ ·) a) (hm : m < 2 ^ 63)
    (hr : ∀ v ∈ a, 0 ≤ v ∧ v < m) :
    ∀ (fuel i : Nat) (buf : Buf),
      i + fuel + 1 = a.length →
      buf.length = (m + 1).toNat →
      (∀ p : Nat, (p : Int) ≤ a.getD i 0 →
        buf.getD p none = some (cntBelow a (p : Int) : Int)) →
      ∃ b, midLoop a ((a.getD i 0).toNat) i buf fuel = .ok b ∧
        b.length = buf.length ∧
        ∀ p : Nat, (p : Int) ≤ a.getD (a.length - 1) 0 →
          b.getD p none = some (cntBelow a (p : Int) : Int) := by
  intro fuel
  induction fuel with
  | zero =>
    intro i buf hfa hblen hinv
    refine ⟨buf, rfl, rfl, ?_⟩
    have hieq : i = a.length - 1 := by omega
    rw [← hieq]
    exact hinv
  | succ fuel ih =>
    intro i buf hfa hblen hinv
    have hi1 : i + 1 < a.length := by omega
    have hi : i < a.length := by omega
    have hai : 0 ≤ a.getD i 0 ∧ a.getD i 0 < m := by
      refine hr (a.getD i 0) ?_
      rw [List.getD_eq_getElem a 0 hi]
      exact List.getElem_mem hi
    have hai1 : 0 ≤ a.getD (i + 1) 0 ∧ a.getD (i + 1) 0 < m := by
      refine hr (a.getD (i + 1) 0) ?_
      rw [List.getD_eq_getElem a 0 hi1]
      exact List.getElem_mem hi1
    have hmono : a.getD i 0 ≤ a.getD (i + 1) 0 := sorted_getD_le hs (by omega) hi1
    have hidxe : ((a.getD i 0).toNat : Int) = a.getD i 0 := Int.toNat_of_nonneg hai.1
    have hnxte : ((a.getD (i + 1) 0).toNat : Int) = a.getD (i + 1) 0 :=
      Int.toNat_of_nonneg hai1.1
    have hread : readAt a (i + 1) = .ok (a.getD (i + 1) 0) := by
      unfold readAt
      rw [dif_pos hi1, List.getD_eq_getElem a 0 hi1]
      rfl
    have htu : toUsize (a.getD (i + 1) 0) = (a.getD (i + 1) 0).toNat :=
      toUsize_of_nonneg hai1.1 (by omega)
    have hwb : ((a.getD i 0).toNat + 1) +
        ((a.getD (i + 1) 0).toNat - (a.getD i 0).toNat) ≤ buf.length := by
      rw [hblen]
      omega
    obtain ⟨b0, hw, hb0len, hb0⟩ :=
      writeRun_spec ((a.getD (i + 1) 0).toNat - (a.getD i 0).toNat)
        ((a.getD i 0).toNat + 1) buf ((i : Int) + 1) hwb
    have hinv' : ∀ p : Nat, (p : Int) ≤ a.getD (i + 1) 0 →
        b0.getD p none = some (cntBelow a (p : Int) : Int) := by
      intro p hp
      rw [hb0 p]
      by_cases hcase : (a.getD i 0).toNat + 1 ≤ p
      · rw [if_pos ⟨hcase, by omega⟩]
        have hcnt : cntBelow a (p : Int) = i + 1 :=
          cntBelow_between hs hi1 (by omega) hp
        rw [hcnt]
        push_cast
        rfl
      · rw [if_neg (by omega)]
        exact hinv p (by omega)
    obtain ⟨b, hml, hblen2, hfinal⟩ :=
      ih (i + 1) b0 (by omega) (by rw [hb0len, hblen]) hinv'
    refine ⟨b, ?_, by rw [hblen2, hb0len], hfinal⟩
    unfold midLoop
    rw [hread, ok_bind, htu, hw, ok_bind]
    exact hml

theorem ind2ptrCore_sorted {a : List Int} {m : Int}
    (hs : List.Sorted (· ≤ ·) a) (hm0 : 0 ≤ m) (hm : m < 2 ^ 63)
    (hr : ∀ v ∈ a, 0 ≤ v ∧ v < m) :
    ∃ buf, ind2ptrCore a m = .ok buf ∧ buf.length = (m + 1).toNat ∧
      ∀ p : Nat, (p : Int) ≤ m →
        buf.getD p none = some (cntBelow a (p : Int) : Int) := by
  by_cases hlen0 : a.length = 0
  · have hnil : a = [] := List.length_eq_zero.mp hlen0
    subst hnil
    refine ⟨List.replicate (m + 1).toNat (some 0), ?_, List.length_replicate _ _, ?_⟩
    · unfold ind2ptrCore
      rw [if_pos hlen0]
    · intro p hp
      rw [List.getD_eq_getElem?_getD, List.getElem?_replicate,
        if_pos (by omega : p < (m + 1).toNat)]
      simp [cntBelow]
  · have hlen : 0 < a.length := by omega
    have hread0 : readAt a 0 = .ok (a.getD 0 0) := by
      unfold readAt
      rw [dif_pos hlen, List.getD_eq_getElem a 0 hlen]
      rfl
    have ha0 : 0 ≤ a.getD 0 0 ∧ a.getD 0 0 < m := by
      refine hr (a.getD 0 0) ?_
      rw [List.getD_eq_getElem a 0 hlen]
      exact List.getElem_mem hlen
    have ha0e : ((a.getD 0 0).toNat : Int) = a.getD 0 0 := Int.toNat_of_nonneg ha0.1
    obtain ⟨b1, hw1, hb1len, hb1⟩ :=
      writeRun_spec ((a.getD 0 0 + 1).toNat) 0 (List.replicate (m + 1).toNat none) 0
        (by rw [List.length_replicate]; omega)
    rw [List.length_replicate] at hb1len
    have hbase : ∀ p : Nat, (p : Int) ≤ a.getD 0 0 →
        b1.getD p none = some (cntBelow a (p : Int) : Int) := by
      intro p hp
      rw [hb1 p, if_pos (by omega)]
      have hcnt : cntBelow a (p : Int) = 0 :=
        Nat.le_zero.mp (cntBelow_le_of_le_getD hs hlen hp)
      rw [hcnt]
      rfl
    obtain ⟨b2, hml, hb2len, hinv2⟩ :=
      midLoop_sorted hs hm hr (a.length - 1) 0 b1 (by omega) hb1len hbase
    have hread1 : readAt a (a.length - 1) = .ok (a.getD (a.length - 1) 0) := by
      unfold readAt
      rw [dif_pos (by omega : a.length - 1 < a.length),
        List.getD_eq_getElem a 0 (show a.length - 1 < a.length by omega)]
      rfl
    have halast : 0 ≤ a.getD (a.length - 1) 0 ∧ a.getD (a.length - 1) 0 < m := by
      refine hr (a.getD (a.length - 1) 0) ?_
      rw [List.getD_eq_getElem a 0 (show a.length - 1 < a.length by omega)]
      exact List.getElem_mem (by omega)
    obtain ⟨b3, hl3, hb3len, hb3⟩ :=
      loop3Aux_spec ((m + 1 - (a.getD (a.length - 1) 0 + 1)).toNat)
        (a.getD (a.length - 1) 0 + 1) b2 (a.length : Int)
        (by omega) (by omega)
        (by rw [hb2len, hb1len]; omega)
    refine ⟨b3, ?_, ?_, ?_⟩
    · unfold ind2ptrCore
      rw [if_neg hlen0, hread0, ok_bind, hw1, ok_bind,
        toUsize_of_nonneg ha0.1 (by omega), hml, ok_bind, hread1, ok_bind]
      exact hl3
    · rw [hb3len, hb2len, hb1len]
    · intro p hp
      rw [hb3 p]
      by_cases hcase : a.getD (a.length - 1) 0 + 1 ≤ (p : Int)
      · rw [if_pos ⟨hcase, by omega⟩]
        have hcnt : cntBelow a (p : Int) = a.length :=
          cntBelow_eq_length (fun v hv =>
            lt_of_le_of_lt (sorted_le_last hs hlen v hv) (by omega))
        rw [hcnt]
      · rw [if_neg (by omega)]
        exact hinv2 p (by omega)

/-! General shape of the `ind2ptr` output on in-range (possibly unsorted)
keys: every slot below the last key is written with a monotone value, slot
`0` holds `0`, and the trailing loop stamps `numel` up to slot `m`. -/

theorem midLoop_general {a : List Int} {m : Int} (hm : m < 2 ^ 63)
    (hr : ∀ v ∈ a, 0 ≤ v ∧ v < m) :
    ∀ (fuel i : Nat) (buf : Buf),
      i + fuel + 1 = a.length →
      buf.length = (m + 1).toNat →
      (∀ p : Nat, p ≤ (a.getD i 0).toNat →
        ∃ v : Int, buf.getD p none = some v ∧ 0 ≤ v ∧ v ≤ (i : Int)) →
      (∀ p q : Nat, ∀ vp vq : Int, p ≤ q → q ≤ (a.getD i 0).toNat →
        buf.getD p none = some vp → buf.getD q none = some vq → vp ≤ vq) →
      buf.getD 0 none = some 0 →
      ∃ b, midLoop a ((a.getD i 0).toNat) i buf fuel = .ok b ∧
        b.length = buf.length ∧
        (∀ p : Nat, p ≤ (a.getD (a.length - 1) 0).toNat →
          ∃ v : Int, b.getD p none = some v ∧ 0 ≤ v ∧
            v ≤ (a.length : Int) - 1) ∧
        (∀ p q : Nat, ∀ vp vq : Int, p ≤ q → q ≤ (a.getD (a.length - 1) 0).toNat →
          b.getD p none = some vp → b.getD q none = some vq → vp ≤ vq) ∧
        b.getD 0 none = some 0 := by
  intro fuel
  induction fuel with
  | zero =>
    intro i buf hfa hblen h1 h2 h3
    have hieq : i = a.length - 1 := by omega
    subst hieq
    refine ⟨buf, rfl, rfl, ?_, h2, h3⟩
    intro p hp
    obtain ⟨v, hv, hv0, hvi⟩ := h1 p hp
    exact ⟨v, hv, hv0, by omega⟩
  | succ fuel ih =>
    intro i buf hfa hblen h1 h2 h3
    have hi1 : i + 1 < a.length := by omega
    have hi : i < a.length := by omega
    have hai : 0 ≤ a.getD i 0 ∧ a.getD i 0 < m := by
      refine hr (a.getD i 0) ?_
      rw [List.getD_eq_getElem a 0 hi]
      exact List.getElem_mem hi
    have hai1 : 0 ≤ a.getD (i + 1) 0 ∧ a.getD (i + 1) 0 < m := by
      refine hr (a.getD (i + 1) 0) ?_
      rw [List.getD_eq_getElem a 0 hi1]
      exact List.getElem_mem hi1
    have hidxe : ((a.getD i 0).toNat : Int) = a.getD i 0 := Int.toNat_of_nonneg hai.1
    have hnxte : ((a.getD (i + 1) 0).toNat : Int) = a.getD (i + 1) 0 :=
      Int.toNat_of_nonneg hai1.1
    have hread : readAt a (i + 1) = .ok (a.getD (i + 1) 0) := by
      unfold readAt
      rw [dif_pos hi1, List.getD_eq_getElem a 0 hi1]
      rfl
    have htu : toUsize (a.getD (i + 1) 0) = (a.getD (i + 1) 0).toNat :=
      toUsize_of_nonneg hai1.1 (by omega)
    have hwb : ((a.getD i 0).toNat + 1) +
        ((a.getD (i + 1) 0).toNat - (a.getD i 0).toNat) ≤ buf.length := by
      rw [hblen]
      omega
    obtain ⟨b0, hw, hb0len, hb0⟩ :=
      writeRun_spec ((a.getD (i + 1) 0).toNat - (a.getD i 0).toNat)
        ((a.getD i 0).toNat + 1) buf ((i : Int) + 1) hwb
    have h1' : ∀ p : Nat, p ≤ (a.getD (i + 1) 0).toNat →
        ∃ v : Int, b0.getD p none = some v ∧ 0 ≤ v ∧ v ≤ ((i : Int) + 1) := by
      intro p hp
      rw [hb0 p]
      by_cases hcase : (a.getD i 0).toNat + 1 ≤ p ∧
          p < (a.getD i 0).toNat + 1 + ((a.getD (i + 1) 0).toNat - (a.getD i 0).toNat)
      · rw [if_pos hcase]
        exact ⟨(i : Int) + 1, rfl, by omega, le_refl _⟩
      · rw [if_neg hcase]
        have hple : p ≤ (a.getD i 0).toNat := by omega
        obtain ⟨v, hv, hv0, hvi⟩ := h1 p hple
        exact ⟨v, hv, hv0, by omega⟩
    have h2' : ∀ p q : Nat, ∀ vp vq : Int, p ≤ q → q ≤ (a.getD (i + 1) 0).toNat →
        b0.getD p none = some vp → b0.getD q none = some vq → vp ≤ vq := by
      intro p q vp vq hpq hq hvp hvq
      rw [hb0 p] at hvp
      rw [hb0 q] at hvq
      by_cases hqc : (a.getD i 0).toNat + 1 ≤ q ∧
          q < (a.getD i 0).toNat + 1 + ((a.getD (i + 1) 0).toNat - (a.getD i 0).toNat)
      · rw [if_pos hqc] at hvq
        injection hvq with hvq
        by_cases hpc : (a.getD i 0).toNat + 1 ≤ p ∧
            p < (a.getD i 0).toNat + 1 + ((a.getD (i + 1) 0).toNat - (a.getD i 0).toNat)
        · rw [if_pos hpc] at hvp
          injection hvp with hvp
          omega
        · rw [if_neg hpc] at hvp
          have hple : p ≤ (a.getD i 0).toNat := by omega
          obtain ⟨v, hv, hv0, hvi⟩ := h1 p hple
          rw [hv] at hvp
          injection hvp with hvp
          omega
      · rw [if_neg hqc] at hvq
        have hqle : q ≤ (a.getD i 0).toNat := by omega
        have hpc : ¬ ((a.getD i 0).toNat + 1 ≤ p ∧
            p < (a.getD i 0).toNat + 1 +
              ((a.getD (i + 1) 0).toNat - (a.getD i 0).toNat)) := by omega
        rw [if_neg hpc] at hvp
        exact h2 p q vp vq hpq hqle hvp hvq
    have h3' : b0.getD 0 none = some 0 := by
      rw [hb0 0, if_neg (by omega)]
      exact h3
    obtain ⟨b, hml, hblen2, g1, g2, g3⟩ :=
      ih (i + 1) b0 (by omega) (by rw [hb0len, hblen]) h1' h2' h3'
    refine ⟨b, ?_, by rw [hblen2, hb0len], g1, g2, g3⟩
    unfold midLoop
    rw [hread, ok_bind, htu, hw, ok_bind]
    exact hml

theorem ind2ptrCore_general {a : List Int} {m : Int}
    (hm0 : 0 ≤ m) (hm : m < 2 ^ 63)
    (hr : ∀ v ∈ a, 0 ≤ v ∧ v < m) :
    ∃ buf, ind2ptrCore a m = .ok buf ∧ buf.length = (m + 1).toNat ∧
      (∀ p : Nat, (p : Int) ≤ m → ∃ v : Int, buf.getD p none = some v ∧ 0 ≤ v) ∧
      buf.getD 0 none = some 0 ∧
      buf.getD m.toNat none = some (a.length : Int) ∧
      (∀ p q : Nat, ∀ vp vq : Int, p ≤ q → (q : Int) ≤ m →
        buf.getD p none = some vp → buf.getD q none = some vq → vp ≤ vq) := by
  by_cases hlen0 : a.length = 0
  · have hnil : a = [] := List.length_eq_zero.mp hlen0
    subst hnil
    have hrep : ∀ p : Nat, (p : Int) ≤ m →
        (List.replicate (m + 1).toNat (some 0 : Option Int)).getD p none = some 0 := by
      intro p hp
      rw [List.getD_eq_getElem?_getD, List.getElem?_replicate,
        if_pos (by omega : p < (m + 1).toNat)]
      rfl
    refine ⟨List.replicate (m + 1).toNat (some 0), ?_, List.length_replicate _ _,
      fun p hp => ⟨0, hrep p hp, le_refl 0⟩, hrep 0 (by omega), ?_, ?_⟩
    · unfold ind2ptrCore
      rw [if_pos hlen0]
    · rw [hrep m.toNat (by omega)]
      simp
    · intro p q vp vq hpq hq hvp hvq
      rw [hrep p (by omega)] at hvp
      rw [hrep q hq] at hvq
      injection hvp with hvp
      injection hvq with hvq
      omega
  · have hlen : 0 < a.length := by omega
    have hread0 : readAt a 0 = .ok (a.getD 0 0) := by
      unfold readAt
      rw [dif_pos hlen, List.getD_eq_getElem a 0 hlen]
      rfl
    have ha0 : 0 ≤ a.getD 0 0 ∧ a.getD 0 0 < m := by
      refine hr (a.getD 0 0) ?_
      rw [List.getD_eq_getElem a 0 hlen]
      exact List.getElem_mem hlen
    have ha0e : ((a.getD 0 0).toNat : Int) = a.getD 0 0 := Int.toNat_of_nonneg ha0.1
    obtain ⟨b1, hw1, hb1len, hb1⟩ :=
      writeRun_spec ((a.getD 0 0 + 1).toNat) 0 (List.replicate (m + 1).toNat none) 0
        (by rw [List.length_replicate]; omega)
    rw [List.length_replicate] at hb1len
    have hbase1 : ∀ p : Nat, p ≤ (a.getD 0 0).toNat →
        ∃ v : Int, b1.getD p none = some v ∧ 0 ≤ v ∧ v ≤ ((0 : Nat) : Int) := by
      intro p hp
      rw [hb1 p, if_pos (by omega)]
      exact ⟨0, rfl, le_refl 0, by omega⟩
    have hbase2 : ∀ p q : Nat, ∀ vp vq : Int, p ≤ q → q ≤ (a.getD 0 0).toNat →
        b1.getD p none = some vp → b1.getD q none = some vq → vp ≤ vq := by
      intro p q vp vq hpq hq hvp hvq
      rw [hb1 p, if_pos (by omega)] at hvp
      rw [hb1 q, if_pos (by omega)] at hvq
      injection hvp with hvp
      injection hvq with hvq
      omega
    have hbase3 : b1.getD 0 none = some 0 := by
      rw [hb1 0, if_pos (by omega)]
    obtain ⟨b2, hml, hb2len, g1, g2, g3⟩ :=
      midLoop_general hm hr (a.length - 1) 0 b1 (by omega) hb1len hbase1 hbase2 hbase3
    have hread1 : readAt a (a.length - 1) = .ok (a.getD (a.length - 1) 0) := by
      unfold readAt
      rw [dif_pos (by omega : a.length - 1 < a.length),
        List.getD_eq_getElem a 0 (show a.length - 1 < a.length by omega)]
      rfl
    have halast : 0 ≤ a.getD (a.length - 1) 0 ∧ a.getD (a.length - 1) 0 < m := by
      refine hr (a.getD (a.length - 1) 0) ?_
      rw [List.getD_eq_getElem a 0 (show a.length - 1 < a.length by omega)]
      exact List.getElem_mem (by omega)
    have hlaste : ((a.getD (a.length - 1) 0).toNat : Int) = a.getD (a.length - 1) 0 :=
      Int.toNat_of_nonneg halast.1
    obtain ⟨b3, hl3, hb3len, hb3⟩ :=
      loop3Aux_spec ((m + 1 - (a.getD (a.length - 1) 0 + 1)).toNat)
        (a.getD (a.length - 1) 0 + 1) b2 (a.length : Int)
        (by omega) (by omega)
        (by rw [hb2len, hb1len]; omega)
    refine ⟨b3, ?_, ?_, ?_, ?_, ?_, ?_⟩
    · unfold ind2ptrCore
      rw [if_neg hlen0, hread0, ok_bind, hw1, ok_bind,
        toUsize_of_nonneg ha0.1 (by omega), hml, ok_bind, hread1, ok_bind]
      exact hl3
    · rw [hb3len, hb2len, hb1len]
    · intro p hp
      rw [hb3 p]
      by_cases hcase : a.getD (a.length - 1) 0 + 1 ≤ (p : Int)
      · rw [if_pos ⟨hcase, by omega⟩]
        exact ⟨(a.length : Int), rfl, by omega⟩
      · rw [if_neg (by omega)]
        obtain ⟨v, hv, hv0, _⟩ := g1 p (by omega)
        exact ⟨v, hv, hv0⟩
    · rw [hb3 0, if_neg (by omega)]
      exact g3
    · rw [hb3 m.toNat, if_pos ⟨by omega, by omega⟩]
    · intro p q vp vq hpq hq hvp hvq
      rw [hb3 p] at hvp
      rw [hb3 q] at hvq
      by_cases hqc : a.getD (a.length - 1) 0 + 1 ≤ (q : Int)
      · rw [if_pos ⟨hqc, by omega⟩] at hvq
        injection hvq with hvq
        by_cases hpc : a.getD (a.length - 1) 0 + 1 ≤ (p : Int)
        · rw [if_pos ⟨hpc, by omega⟩] at hvp
          injection hvp with hvp
          omega
        · rw [if_neg (by omega)] at hvp
          obtain ⟨v, hv, hv0, hvb⟩ := g1 p (by omega)
          rw [hv] at hvp
          injection hvp with hvp
          omega
      · rw [if_neg (by omega)] at hvq
        have hpc : ¬ (a.getD (a.length - 1) 0 + 1 ≤ (p : Int) ∧
            (p : Int) < a.getD (a.length - 1) 0 + 1 +
              ((m + 1 - (a.getD (a.length - 1) 0 + 1)).toNat : Int)) := by omega
        rw [if_neg hpc] at hvp
        exact g2 p q vp vq hpq (by omega) hvp hvq

/-! Properties of `argsort`, `indexSelect` and the pipeline plumbing. -/

theorem argsort_perm (keys : List Int) :
    (argsort keys).Perm (List.range keys.length) :=
  List.perm_insertionSort _ _

theorem argsort_mem_lt {keys : List Int} {i : Nat} (h : i ∈ argsort keys) :
    i < keys.length :=
  List.mem_range.mp ((argsort_perm keys).mem_iff.mp h)

theorem argsort_length (keys : List Int) :
    (argsort keys).length = keys.length :=
  ((argsort_perm keys).length_eq).trans (List.length_range _)

theorem argsort_sorted (keys : List Int) :
    List.Pairwise (fun i j => keys.getD i 0 ≤ keys.getD j 0) (argsort keys) := by
  haveI : IsTotal Nat (fun i j => keys.getD i 0 ≤ keys.getD j 0) :=
    ⟨fun a b => le_total _ _⟩
  haveI : IsTrans Nat (fun i j => keys.getD i 0 ≤ keys.getD j 0) :=
    ⟨fun a b c hab hbc => le_trans hab hbc⟩
  exact List.sorted_insertionSort _ _

theorem indexSelect_length (l : List Int) (perm : List Nat) :
    (indexSelect l perm).length = perm.length :=
  List.length_map _ _

theorem range_map_getD (l : List Int) :
    indexSelect l (List.range l.length) = l := by
  refine List.ext_getElem
    (by rw [indexSelect_length, List.length_range]) ?_
  intro n h1 h2
  unfold indexSelect
  rw [List.getElem_map, List.getElem_range, List.getD_eq_getElem l 0 h2]

theorem indexSelect_argsort_perm (l keys : List Int)
    (h : keys.length = l.length) :
    (indexSelect l (argsort keys)).Perm l := by
  have hp : (argsort keys).Perm (List.range l.length) := by
    rw [← h]
    exact argsort_perm keys
  have hmap := hp.map (fun i => l.getD i 0)
  have hr := range_map_getD l
  unfold indexSelect at hr
  rw [hr] at hmap
  exact hmap

theorem indexSelect_forall {l : List Int} {perm : List Nat} {P : Int → Prop}
    (hperm : ∀ i ∈ perm, i < l.length) (hl : ∀ v ∈ l, P v) :
    ∀ v ∈ indexSelect l perm, P v := by
  intro v hv
  obtain ⟨i, hi, rfl⟩ := List.mem_map.mp hv
  have hlt := hperm i hi
  rw [List.getD_eq_getElem l 0 hlt]
  exact hl _ (List.getElem_mem hlt)

theorem map_getD_of_getD {buf : Buf} {p : Nat} {v : Int}
    (h : buf.getD p none = some v) (hp : p < buf.length) :
    (buf.map (fun o => o.getD 0)).getD p 0 = v := by
  rw [List.getD_eq_getElem _ 0 (by rw [List.length_map]; exact hp),
    List.getElem_map]
  rw [List.getD_eq_getElem buf none hp] at h
  rw [h]
  rfl

theorem ind2ptr_ok {t : Tensor} {m : Int} (hd : t.device = Device.Cpu)
    (hk : t.kind = Kind.Int64) (hm0 : 0 ≤ m) {buf : Buf}
    (hc : ind2ptrCore t.data m = .ok buf) :
    ind2ptr t m = .ok ⟨t.kind, t.device, buf.map (fun o => o.getD 0)⟩ := by
  unfold ind2ptr
  rw [if_neg (by simp [hd]), if_neg (by omega), if_neg (by simp [hk]), hc]

theorem cooPipeline_ok {k : Kind} {d : Device} {group paired : List Int}
    {otherDim numGroups : Int} {ptrs : Tensor}
    (h : ind2ptr ⟨k, d, indexSelect group
        (argsort (List.zipWith (fun g p => wrapK k (g * otherDim + p)) group paired))⟩
      numGroups = .ok ptrs) :
    cooPipeline k d group paired otherDim numGroups =
      .ok ⟨ptrs,
        ⟨k, d, indexSelect paired
          (argsort (List.zipWith (fun g p => wrapK k (g * otherDim + p)) group paired))⟩,
        some (argsort (List.zipWith (fun g p => wrapK k (g * otherDim + p)) group paired))⟩ := by
  simp only [cooPipeline]
  rw [h]

/-! Claim theorems: error handling, metadata and structural claims. -/

/-- C8: invoking `ind2ptr` — and hence the conversion from a Coordinate
Store — on data that is not CPU-resident fails immediately with
`DeviceMismatch`; no Pointer-Indexed Store or partial output is produced,
the outcome is the bare error value. -/
theorem C8_device_mismatch (t : Tensor) (m : Int) (s : CooGraphStorage)
    (ty : SparseGraphType) (h1 : t.device ≠ Device.Cpu)
    (h2 : s.device ≠ Device.Cpu) :
    ind2ptr t m = .error .DeviceMismatch ∧
      tryFromCoo ty s = .error .DeviceMismatch := by
  have herr : ∀ (dat : List Int) (mm : Int),
      ind2ptr ⟨s.kind, s.device, dat⟩ mm = .error .DeviceMismatch := by
    intro dat mm
    unfold ind2ptr
    rw [if_pos h2]
  constructor
  · unfold ind2ptr
    rw [if_pos h1]
  · cases ty <;> simp only [tryFromCoo, cooPipeline] <;> rw [herr]

/-- C8 witness at a concrete non-CPU tensor and store. -/
theorem C8_device_mismatch_witness :
    ind2ptr ⟨Kind.Int64, Device.Cuda 0, [0, 1]⟩ 2 = .error .DeviceMismatch ∧
      tryFromCoo .Csc ⟨Kind.Int64, Device.Cuda 0, [1], [0], (2, 2), rfl⟩ =
        .error .DeviceMismatch :=
  C8_device_mismatch ⟨Kind.Int64, Device.Cuda 0, [0, 1]⟩ 2
    ⟨Kind.Int64, Device.Cuda 0, [1], [0], (2, 2), rfl⟩ .Csc
    (by decide) (by decide)

/-- C9: whenever the conversion from a Coordinate Store succeeds, the
permutation field of the resulting store is present (`some`), never
absent, for both orientations. -/
theorem C9_perm_present (ty : SparseGraphType) (s : CooGraphStorage)
    (res : SparseGraphStorage) (h : tryFromCoo ty s = .ok res) :
    ∃ p, res.perm = some p := by
  cases ty <;>
    (simp only [tryFromCoo, cooPipeline] at h
     split at h
     · injection h with h
       exact ⟨_, by rw [← h]⟩
     · simp at h
     · simp at h)

/-- C9 witness: a concrete successful conversion carries `some`
permutation. -/
theorem C9_perm_present_witness :
    ∃ p, (SparseGraphStorage.mk
        ⟨Kind.Int64, Device.Cpu, [0, 1, 2]⟩
        ⟨Kind.Int64, Device.Cpu, [0, 0]⟩
        (some [1, 0])).perm = some p :=
  C9_perm_present .Csr ⟨Kind.Int64, Device.Cpu, [1, 0], [0, 0], (2, 2), rfl⟩
    _ (by decide)

/-- C3: for both orientations, applying the returned permutation to the
original paired-key sequence (columns for row-grouped, rows for
column-grouped) reproduces the stored index sequence exactly. -/
theorem C3_perm_roundtrip (ty : SparseGraphType) (s : CooGraphStorage)
    (res : SparseGraphStorage) (h : tryFromCoo ty s = .ok res) :
    ∃ p, res.perm = some p ∧
      res.indices.data = p.map (fun i =>
        (match ty with
         | SparseGraphType.Csr => s.colData
         | SparseGraphType.Csc => s.rowData).getD i 0) := by
  cases ty <;>
    (simp only [tryFromCoo, cooPipeline] at h
     split at h
     · injection h with h
       exact ⟨_, by rw [← h], by rw [← h]; rfl⟩
     · simp at h
     · simp at h)

/-- C3 witness on a concrete conversion. -/
theorem C3_perm_roundtrip_witness :
    ∃ p, (SparseGraphStorage.mk
        ⟨Kind.Int64, Device.Cpu, [0, 1, 2]⟩
        ⟨Kind.Int64, Device.Cpu, [5, 3]⟩
        (some [1, 0])).perm = some p ∧
      (SparseGraphStorage.mk
        ⟨Kind.Int64, Device.Cpu, [0, 1, 2]⟩
        ⟨Kind.Int64, Device.Cpu, [5, 3]⟩
        (some [1, 0])).indices.data = p.map (fun i => ([3, 5] : List Int).getD i 0) :=
  C3_perm_roundtrip .Csr ⟨Kind.Int64, Device.Cpu, [1, 0], [3, 5], (2, 6), rfl⟩
    _ (by decide)

/-- C10: whenever `ind2ptr` succeeds, the returned pointer tensor has the
same element kind and device as the input key tensor and length exactly
`m + 1`. -/
theorem C10_output_meta (t : Tensor) (m : Int) (out : Tensor)
    (h : ind2ptr t m = .ok out) :
    out.kind = t.kind ∧ out.device = t.device ∧
      (out.data.length : Int) = m + 1 := by
  unfold ind2ptr at h
  split at h
  · simp at h
  · rename_i hdev
    split at h
    · simp at h
    · rename_i hneg
      split at h
      · simp at h
      · rename_i hkind
        split at h
        · simp at h
        · rename_i buf hbuf
          injection h with h
          have hlen := ind2ptrCore_ok_length hbuf
          refine ⟨by rw [← h], by rw [← h], ?_⟩
          rw [← h]
          show ((buf.map (fun o => o.getD 0)).length : Int) = m + 1
          rw [List.length_map, hlen]
          omega

/-- C10 witness on a concrete input. -/
theorem C10_output_meta_witness :
    (Tensor.mk Kind.Int64 Device.Cpu [0, 2, 3, 5, 5]).kind =
        (Tensor.mk Kind.Int64 Device.Cpu [0, 0, 1, 2, 2]).kind ∧
      (Tensor.mk Kind.Int64 Device.Cpu [0, 2, 3, 5, 5]).device =
        (Tensor.mk Kind.Int64 Device.Cpu [0, 0, 1, 2, 2]).device ∧
      (((Tensor.mk Kind.Int64 Device.Cpu [0, 2, 3, 5, 5]).data.length : Int)) = 4 + 1 :=
  C10_output_meta ⟨Kind.Int64, Device.Cpu, [0, 0, 1, 2, 2]⟩ 4
    ⟨Kind.Int64, Device.Cpu, [0, 2, 3, 5, 5]⟩ (by decide)

/-- C6 counterexample: a key outside `[0, G)` drives a write of the
pointer buffer out of bounds — `ind2ptr` on key `5` with `G = 2` attempts
to index past the length-3 output buffer and aborts, both directly and
through the conversion. -/
theorem C6_bounds_cex :
    ind2ptr ⟨Kind.Int64, Device.Cpu, [5]⟩ 2 = .panic .writeOOB ∧
      tryFromCoo .Csr ⟨Kind.Int64, Device.Cpu, [5], [0], (2, 2), rfl⟩ =
        .panic .writeOOB := by decide

/-- C6 as amended: every read of the key buffer is in bounds (the only
abort the pointer construction can raise is a bounds-checked write
failure), and when every key lies in `[0, G)` for an `i64` group count
`G ≥ 0` all writes are in bounds too and the construction completes;
a key outside `[0, G)` may instead abort on an out-of-bounds write. -/
theorem C6_bounds :
    (∀ (a : List Int) (m : Int) (p : Panic),
        ind2ptrCore a m = .error p → p = Panic.writeOOB) ∧
    (∀ (a : List Int) (m : Int), 0 ≤ m → m < 2 ^ 63 →
        (∀ v ∈ a, 0 ≤ v ∧ v < m) → ∃ buf, ind2ptrCore a m = .ok buf) :=
  ⟨fun _ _ _ h => ind2ptrCore_error h,
   fun a m hm0 hm hr => by
     obtain ⟨buf, hb, _⟩ := ind2ptrCore_general hm0 hm hr
     exact ⟨buf, hb⟩⟩

/-- C6 witness: both parts of the amended claim at concrete inputs. -/
theorem C6_bounds_witness :
    Panic.writeOOB = Panic.writeOOB ∧
      ∃ buf, ind2ptrCore [1, 0, 2] 3 = .ok buf :=
  ⟨C6_bounds.1 [7] 3 Panic.writeOOB (by decide),
   C6_bounds.2 [1, 0, 2] 3 (by decide) (by decide) (by decide)⟩

/-- C7 counterexample: `ind2ptr` on an otherwise-valid 32-bit input does
not succeed — the slice view is fixed to 64 bits (storage.rs line 74), so
the input is rejected with the layout error. -/
theorem C7_width_cex :
    ind2ptr ⟨Kind.Int, Device.Cpu, [0]⟩ 1 = .error .BufferLayoutError := by
  decide

/-- C7 as amended: `ind2ptr` views its input as `i64` and therefore
rejects every CPU-resident 32-bit input with a buffer-layout error, while
the Sparse View conversion (`TryFrom` for `SparseGraph`) is generic over
the index integer kind and succeeds for matching kinds of either width. -/
theorem C7_width (t : Tensor) (m : Int) (s2 : SparseGraphStorage)
    (hd : t.device = Device.Cpu) (hm : 0 ≤ m) (hk : t.kind = Kind.Int) :
    ind2ptr t m = .error .BufferLayoutError ∧
      sparseGraphTryFrom s2.ptrs.kind s2.indices.kind s2 =
        .ok ⟨s2.ptrs.data, s2.indices.data⟩ := by
  constructor
  · unfold ind2ptr
    rw [if_neg (by simp [hd]), if_neg (by omega), if_pos (by simp [hk])]
  · unfold sparseGraphTryFrom tryTensorToSlice
    rw [if_pos rfl, if_pos rfl]

/-- C7 witness: the 32-bit rejection and both view instantiations at
concrete inputs. -/
theorem C7_width_witness :
    ind2ptr ⟨Kind.Int, Device.Cpu, [0, 0]⟩ 3 = .error .BufferLayoutError ∧
      sparseGraphTryFrom Kind.Int Kind.Int64
        ⟨⟨Kind.Int, Device.Cpu, [0, 2]⟩, ⟨Kind.Int64, Device.Cpu, [1, 0]⟩, none⟩ =
        .ok ⟨[0, 2], [1, 0]⟩ :=
  (C7_width ⟨Kind.Int, Device.Cpu, [0, 0]⟩ 3
    ⟨⟨Kind.Int, Device.Cpu, [0, 2]⟩, ⟨Kind.Int64, Device.Cpu, [1, 0]⟩, none⟩
    rfl (by decide) rfl)

/-- C1: on a CPU 64-bit tensor holding group keys sorted ascending with
every key in `[0, G)` and an `i64` group count `G ≥ 0`, `ind2ptr` returns
a pointer array of length `G + 1` whose slot `g` was written with the
number of entries having group key `< g`; in particular an empty input
yields `G + 1` zeros. -/
theorem C1_ind2ptr_counts (t : Tensor) (m : Int)
    (hdev : t.device = Device.Cpu) (hkind : t.kind = Kind.Int64)
    (hm0 : 0 ≤ m) (hm : m < 2 ^ 63)
    (hsorted : List.Sorted (· ≤ ·) t.data)
    (hrange : ∀ v ∈ t.data, 0 ≤ v ∧ v < m) :
    ∃ buf : Buf,
      ind2ptrCore t.data m = .ok buf ∧
      ind2ptr t m = .ok ⟨t.kind, t.device, buf.map (fun o => o.getD 0)⟩ ∧
      (((buf.map (fun o => o.getD 0)).length : Int) = m + 1) ∧
      (∀ g : Nat, (g : Int) ≤ m →
        buf.getD g none = some (cntBelow t.data (g : Int) : Int) ∧
        (buf.map (fun o => o.getD 0)).getD g 0 = (cntBelow t.data (g : Int) : Int)) ∧
      (t.data = [] →
        buf.map (fun o => o.getD 0) = List.replicate (m + 1).toNat 0) := by
  obtain ⟨buf, hcore, hlen, hvals⟩ := ind2ptrCore_sorted hsorted hm0 hm hrange
  refine ⟨buf, hcore, ind2ptr_ok hdev hkind hm0 hcore, ?_, ?_, ?_⟩
  · rw [List.length_map, hlen]
    omega
  · intro g hg
    refine ⟨hvals g hg, map_getD_of_getD (hvals g hg) (by omega)⟩
  · intro hnil
    have hrep : ind2ptrCore t.data m = .ok (List.replicate (m + 1).toNat (some 0)) := by
      unfold ind2ptrCore
      rw [if_pos (by rw [hnil]; rfl)]
    rw [hcore] at hrep
    injection hrep with hrep
    rw [hrep, List.map_replicate]
    rfl

/-- C1 witness: the repository's own `test_ind2ptr` data. -/
theorem C1_ind2ptr_counts_witness :
    List.Sorted (· ≤ ·) ([3, 3, 3, 4, 4, 7, 7, 8, 8] : List Int) ∧
      ∃ buf : Buf,
        ind2ptrCore (Tensor.mk Kind.Int64 Device.Cpu [3, 3, 3, 4, 4, 7, 7, 8, 8]).data 10 =
          .ok buf ∧
        ind2ptr ⟨Kind.Int64, Device.Cpu, [3, 3, 3, 4, 4, 7, 7, 8, 8]⟩ 10 =
          .ok ⟨(Tensor.mk Kind.Int64 Device.Cpu [3, 3, 3, 4, 4, 7, 7, 8, 8]).kind,
            (Tensor.mk Kind.Int64 Device.Cpu [3, 3, 3, 4, 4, 7, 7, 8, 8]).device,
            buf.map (fun o => o.getD 0)⟩ ∧
        (((buf.map (fun o => o.getD 0)).length : Int) = 10 + 1) ∧
        (∀ g : Nat, (g : Int) ≤ 10 →
          buf.getD g none =
            some (cntBelow (Tensor.mk Kind.Int64 Device.Cpu
              [3, 3, 3, 4, 4, 7, 7, 8, 8]).data (g : Int) : Int) ∧
          (buf.map (fun o => o.getD 0)).getD g 0 =
            (cntBelow (Tensor.mk Kind.Int64 Device.Cpu
              [3, 3, 3, 4, 4, 7, 7, 8, 8]).data (g : Int) : Int)) ∧
        ((Tensor.mk Kind.Int64 Device.Cpu [3, 3, 3, 4, 4, 7, 7, 8, 8]).data = [] →
          buf.map (fun o => o.getD 0) = List.replicate ((10 : Int) + 1).toNat 0) :=
  ⟨by decide,
   C1_ind2ptr_counts ⟨Kind.Int64, Device.Cpu, [3, 3, 3, 4, 4, 7, 7, 8, 8]⟩ 10
     rfl rfl (by decide) (by decide) (by decide) (by decide)⟩

/-- Master lemma for the successful pipeline on a CPU 64-bit store with
in-range group keys: the conversion succeeds and the resulting pointer
data is fully written, non-decreasing, starts at `0` and ends at the edge
count, while the index data is the permuted paired data. -/
theorem cooPipeline_master (group paired : List Int) (otherDim numGroups : Int)
    (hlen : group.length = paired.length)
    (hG0 : 0 ≤ numGroups) (hG : numGroups < 2 ^ 63)
    (hg : ∀ v ∈ group, 0 ≤ v ∧ v < numGroups) :
    ∃ res, cooPipeline Kind.Int64 Device.Cpu group paired otherDim numGroups = .ok res ∧
      res.perm = some (argsort (List.zipWith
        (fun g p => wrapK Kind.Int64 (g * otherDim + p)) group paired)) ∧
      res.indices.data = indexSelect paired (argsort (List.zipWith
        (fun g p => wrapK Kind.Int64 (g * otherDim + p)) group paired)) ∧
      res.indices.data.Perm paired ∧
      res.indices.data.length = group.length ∧
      res.ptrs.data.length = (numGroups + 1).toNat ∧
      List.Sorted (· ≤ ·) res.ptrs.data ∧
      res.ptrs.data.getD 0 0 = 0 ∧
      res.ptrs.data.getD numGroups.toNat 0 = (group.length : Int) := by
  have hkeyslen : (List.zipWith
      (fun g p => wrapK Kind.Int64 (g * otherDim + p)) group paired).length
      = group.length := by
    rw [List.length_zipWith]
    omega
  have hpermlen : (argsort (List.zipWith
      (fun g p => wrapK Kind.Int64 (g * otherDim + p)) group paired)).length
      = group.length := by
    rw [argsort_length, hkeyslen]
  have hsel_len : (indexSelect group (argsort (List.zipWith
      (fun g p => wrapK Kind.Int64 (g * otherDim + p)) group paired))).length
      = group.length := by
    rw [indexSelect_length, hpermlen]
  have hselg : ∀ v ∈ indexSelect group (argsort (List.zipWith
      (fun g p => wrapK Kind.Int64 (g * otherDim + p)) group paired)),
      0 ≤ v ∧ v < numGroups := by
    refine indexSelect_forall ?_ hg
    intro i hi
    have := argsort_mem_lt hi
    omega
  obtain ⟨buf, hcore, hbuflen, _hfull, h0, hGslot, _hmono⟩ :=
    ind2ptrCore_general hG0 hG hselg
  have hok := ind2ptr_ok (t := ⟨Kind.Int64, Device.Cpu, indexSelect group
      (argsort (List.zipWith (fun g p => wrapK Kind.Int64 (g * otherDim + p))
        group paired))⟩) rfl rfl hG0 hcore
  have hpipe := cooPipeline_ok hok
  refine ⟨_, hpipe, rfl, rfl, ?_, ?_, ?_, ?_, ?_, ?_⟩
  · exact indexSelect_argsort_perm paired _ (by rw [hkeyslen, hlen])
  · show (indexSelect paired _).length = group.length
    rw [indexSelect_length, hpermlen]
  · show (buf.map (fun o => o.getD 0)).length = (numGroups + 1).toNat
    rw [List.length_map, hbuflen]
  · show List.Sorted (· ≤ ·) (buf.map (fun o => o.getD 0))
    rw [List.Sorted, List.pairwise_iff_getElem]
    intro i j hi hj hij
    rw [List.length_map, hbuflen] at hi hj
    obtain ⟨vi, hvi, _⟩ := _hfull i (by omega)
    obtain ⟨vj, hvj, _⟩ := _hfull j (by omega)
    have hle := _hmono i j vi vj (by omega) (by omega) hvi hvj
    rw [← List.getD_eq_getElem _ 0 (by rw [List.length_map, hbuflen]; omega),
      ← List.getD_eq_getElem _ 0 (by rw [List.length_map, hbuflen]; omega),
      map_getD_of_getD hvi (by omega), map_getD_of_getD hvj (by omega)]
    exact hle
  · show (buf.map (fun o => o.getD 0)).getD 0 0 = 0
    exact map_getD_of_getD h0 (by omega)
  · show (buf.map (fun o => o.getD 0)).getD numGroups.toNat 0 = (group.length : Int)
    rw [hsel_len] at hGslot
    exact map_getD_of_getD hGslot (by omega)

/-- C4: for every CPU 64-bit Coordinate Store with in-range coordinates
(and `i64` sizes), the conversion succeeds for either orientation and the
resulting pointer array is non-decreasing, starts at `0`, ends at the edge
count `E`, has length `G + 1`, and consequently the per-group degrees sum
to `E`. -/
theorem C4_pointer_invariants (ty : SparseGraphType) (s : CooGraphStorage)
    (hd : s.device = Device.Cpu) (hk : s.kind = Kind.Int64)
    (hrow : ∀ v ∈ s.rowData, 0 ≤ v ∧ v < s.size.1)
    (hcol : ∀ v ∈ s.colData, 0 ≤ v ∧ v < s.size.2)
    (hR0 : 0 ≤ s.size.1) (hR : s.size.1 < 2 ^ 63)
    (hC0 : 0 ≤ s.size.2) (hC : s.size.2 < 2 ^ 63) :
    ∃ res, tryFromCoo ty s = .ok res ∧
      List.Sorted (· ≤ ·) res.ptrs.data ∧
      res.ptrs.data.getD 0 0 = 0 ∧
      res.ptrs.data.getD (match ty with
        | SparseGraphType.Csr => s.size.1
        | SparseGraphType.Csc => s.size.2).toNat 0 = (s.rowData.length : Int) ∧
      ((res.ptrs.data.length : Int) = (match ty with
        | SparseGraphType.Csr => s.size.1
        | SparseGraphType.Csc => s.size.2) + 1) ∧
      (∑ g ∈ Finset.range (match ty with
          | SparseGraphType.Csr => s.size.1
          | SparseGraphType.Csc => s.size.2).toNat,
        (res.ptrs.data.getD (g + 1) 0 - res.ptrs.data.getD g 0))
        = (s.rowData.length : Int) := by
  cases ty
  case Csr =>
    have heq : tryFromCoo SparseGraphType.Csr s =
        cooPipeline Kind.Int64 Device.Cpu s.rowData s.colData s.size.2 s.size.1 := by
      simp only [tryFromCoo]
      rw [hk, hd]
    obtain ⟨res, hres, _h1, _h2, _h3, _h4, hptrlen, hsorted, h0, hGE⟩ :=
      cooPipeline_master s.rowData s.colData s.size.2 s.size.1 s.hlen hR0 hR hrow
    refine ⟨res, by rw [heq]; exact hres, hsorted, h0, hGE, ?_, ?_⟩
    · show ((res.ptrs.data.length : Int)) = s.size.1 + 1
      rw [hptrlen]
      omega
    · show (∑ g ∈ Finset.range s.size.1.toNat,
        (res.ptrs.data.getD (g + 1) 0 - res.ptrs.data.getD g 0))
          = (s.rowData.length : Int)
      rw [Finset.sum_range_sub (fun g => res.ptrs.data.getD g 0) s.size.1.toNat,
        hGE, h0]
      ring
  case Csc =>
    have heq : tryFromCoo SparseGraphType.Csc s =
        cooPipeline Kind.Int64 Device.Cpu s.colData s.rowData s.size.1 s.size.2 := by
      simp only [tryFromCoo]
      rw [hk, hd]
    obtain ⟨res, hres, _h1, _h2, _h3, _h4, hptrlen, hsorted, h0, hGE⟩ :=
      cooPipeline_master s.colData s.rowData s.size.1 s.size.2 s.hlen.symm hC0 hC hcol
    have hEe : ((s.colData.length : Nat) : Int) = (s.rowData.length : Int) := by
      rw [s.hlen]
    refine ⟨res, by rw [heq]; exact hres, hsorted, h0,
      (by show res.ptrs.data.getD s.size.2.toNat 0 = (s.rowData.length : Int)
          rw [hGE, hEe]), ?_, ?_⟩
    · show ((res.ptrs.data.length : Int)) = s.size.2 + 1
      rw [hptrlen]
      omega
    · show (∑ g ∈ Finset.range s.size.2.toNat,
        (res.ptrs.data.getD (g + 1) 0 - res.ptrs.data.getD g 0))
          = (s.rowData.length : Int)
      rw [Finset.sum_range_sub (fun g => res.ptrs.data.getD g 0) s.size.2.toNat,
        hGE, h0, hEe]
      ring

/-- C4 witness: the repository's `test_to_csc` store. -/
theorem C4_pointer_invariants_witness :
    ∃ res, tryFromCoo .Csc ⟨Kind.Int64, Device.Cpu,
        [1, 2, 3, 4, 9, 5, 6, 7], [0, 0, 0, 1, 4, 1, 2, 2], (10, 10), rfl⟩ =
      .ok res ∧
      List.Sorted (· ≤ ·) res.ptrs.data ∧
      res.ptrs.data.getD 0 0 = 0 ∧
      res.ptrs.data.getD (10 : Int).toNat 0 =
        (([1, 2, 3, 4, 9, 5, 6, 7] : List Int).length : Int) ∧
      ((res.ptrs.data.length : Int) = (10 : Int) + 1) ∧
      (∑ g ∈ Finset.range (10 : Int).toNat,
        (res.ptrs.data.getD (g + 1) 0 - res.ptrs.data.getD g 0))
        = (([1, 2, 3, 4, 9, 5, 6, 7] : List Int).length : Int) :=
  C4_pointer_invariants .Csc
    ⟨Kind.Int64, Device.Cpu, [1, 2, 3, 4, 9, 5, 6, 7],
      [0, 0, 0, 1, 4, 1, 2, 2], (10, 10), rfl⟩
    rfl rfl (by decide) (by decide) (by decide) (by decide) (by decide) (by decide)

theorem join_take_slices (l : List Int) (f : Nat → Nat) :
    ∀ G : Nat, (∀ g, g < G → f g ≤ f (g + 1)) → f 0 = 0 →
    ((List.range G).map (fun g => (l.drop (f g)).take (f (g + 1) - f g))).flatten
      = l.take (f G) := by
  intro G
  induction G with
  | zero =>
    intro _ h0
    simp [h0]
  | succ G ih =>
    intro hmono h0
    rw [List.range_succ, List.map_append, List.flatten_append,
      ih (fun g hg => hmono g (by omega)) h0]
    simp only [List.map_cons, List.map_nil, List.flatten_cons, List.flatten_nil,
      List.append_nil]
    rw [← List.take_add]
    congr 1
    have := hmono G (by omega)
    omega

theorem join_slices_eq (l : List Int) (f : Nat → Nat) (G : Nat)
    (hmono : ∀ g, g < G → f g ≤ f (g + 1)) (h0 : f 0 = 0)
    (hG : f G = l.length) :
    ((List.range G).map (fun g => (l.drop (f g)).take (f (g + 1) - f g))).flatten
      = l := by
  rw [join_take_slices l f G hmono h0, hG, List.take_length]

/-- C5: for every CPU 64-bit Coordinate Store with in-range coordinates,
concatenating the index sub-ranges `index[pointer[g] .. pointer[g+1]]`
over all groups in ascending group order yields, as a multiset, exactly
the paired-key values of the original edge list. -/
theorem C5_coverage (ty : SparseGraphType) (s : CooGraphStorage)
    (hd : s.device = Device.Cpu) (hk : s.kind = Kind.Int64)
    (hrow : ∀ v ∈ s.rowData, 0 ≤ v ∧ v < s.size.1)
    (hcol : ∀ v ∈ s.colData, 0 ≤ v ∧ v < s.size.2)
    (hR0 : 0 ≤ s.size.1) (hR : s.size.1 < 2 ^ 63)
    (hC0 : 0 ≤ s.size.2) (hC : s.size.2 < 2 ^ 63) :
    ∃ res, tryFromCoo ty s = .ok res ∧
      (((List.range (match ty with
          | SparseGraphType.Csr => s.size.1
          | SparseGraphType.Csc => s.size.2).toNat).map (fun g =>
        ((res.indices.data.drop (res.ptrs.data.getD g 0).toNat).take
          ((res.ptrs.data.getD (g + 1) 0).toNat
            - (res.ptrs.data.getD g 0).toNat)))).flatten).Perm
        (match ty with
         | SparseGraphType.Csr => s.colData
         | SparseGraphType.Csc => s.rowData) := by
  cases ty
  case Csr =>
    have heq : tryFromCoo SparseGraphType.Csr s =
        cooPipeline Kind.Int64 Device.Cpu s.rowData s.colData s.size.2 s.size.1 := by
      simp only [tryFromCoo]
      rw [hk, hd]
    obtain ⟨res, hres, _h1, _h2, hindperm, hindlen, hptrlen, hsorted, h0, hGE⟩ :=
      cooPipeline_master s.rowData s.colData s.size.2 s.size.1 s.hlen hR0 hR hrow
    refine ⟨res, by rw [heq]; exact hres, ?_⟩
    show (((List.range s.size.1.toNat).map (fun g =>
      ((res.indices.data.drop (res.ptrs.data.getD g 0).toNat).take
        ((res.ptrs.data.getD (g + 1) 0).toNat
          - (res.ptrs.data.getD g 0).toNat)))).flatten).Perm s.colData
    rw [join_slices_eq res.indices.data
      (fun g => (res.ptrs.data.getD g 0).toNat) s.size.1.toNat
      (fun g hg => Int.toNat_le_toNat (sorted_getD_le hsorted (by omega)
        (by rw [hptrlen]; omega)))
      (by show (res.ptrs.data.getD 0 0).toNat = 0
          rw [h0]
          rfl)
      (by show (res.ptrs.data.getD s.size.1.toNat 0).toNat = res.indices.data.length
          rw [hGE, hindlen]
          omega)]
    exact hindperm
  case Csc =>
    have heq : tryFromCoo SparseGraphType.Csc s =
        cooPipeline Kind.Int64 Device.Cpu s.colData s.rowData s.size.1 s.size.2 := by
      simp only [tryFromCoo]
      rw [hk, hd]
    obtain ⟨res, hres, _h1, _h2, hindperm, hindlen, hptrlen, hsorted, h0, hGE⟩ :=
      cooPipeline_master s.colData s.rowData s.size.1 s.size.2 s.hlen.symm hC0 hC hcol
    refine ⟨res, by rw [heq]; exact hres, ?_⟩
    show (((List.range s.size.2.toNat).map (fun g =>
      ((res.indices.data.drop (res.ptrs.data.getD g 0).toNat).take
        ((res.ptrs.data.getD (g + 1) 0).toNat
          - (res.ptrs.data.getD g 0).toNat)))).flatten).Perm s.rowData
    rw [join_slices_eq res.indices.data
      (fun g => (res.ptrs.data.getD g 0).toNat) s.size.2.toNat
      (fun g hg => Int.toNat_le_toNat (sorted_getD_le hsorted (by omega)
        (by rw [hptrlen]; omega)))
      (by show (res.ptrs.data.getD 0 0).toNat = 0
          rw [h0]
          rfl)
      (by show (res.ptrs.data.getD s.size.2.toNat 0).toNat = res.indices.data.length
          rw [hGE, hindlen]
          omega)]
    exact hindperm

/-- C5 witness: a concrete row-grouped conversion. -/
theorem C5_coverage_witness :
    ∃ res, tryFromCoo .Csr
        ⟨Kind.Int64, Device.Cpu, [1, 0, 1], [2, 3, 0], (2, 4), rfl⟩ = .ok res ∧
      (((List.range (2 : Int).toNat).map (fun g =>
        ((res.indices.data.drop (res.ptrs.data.getD g 0).toNat).take
          ((res.ptrs.data.getD (g + 1) 0).toNat
            - (res.ptrs.data.getD g 0).toNat)))).flatten).Perm
        ([2, 3, 0] : List Int) :=
  C5_coverage .Csr ⟨Kind.Int64, Device.Cpu, [1, 0, 1], [2, 3, 0], (2, 4), rfl⟩
    rfl rfl (by decide) (by decide) (by decide) (by decide) (by decide) (by decide)

/-! Lexicographic order of the sorted edge sequence. -/

theorem wrapK_Int64_eq {x : Int} (h1 : -(2 ^ 63) ≤ x) (h2 : x < 2 ^ 63) :
    wrapK Kind.Int64 x = x := by
  unfold wrapK
  simp only [Kind.bits]
  norm_num
  omega

theorem keys_getD (group paired : List Int) (otherDim : Int) {i : Nat}
    (h1 : i < group.length) (h2 : i < paired.length) :
    (List.zipWith (fun g p => wrapK Kind.Int64 (g * otherDim + p))
        group paired).getD i 0
      = wrapK Kind.Int64 (group.getD i 0 * otherDim + paired.getD i 0) := by
  rw [List.getD_eq_getElem _ 0 (by rw [List.length_zipWith]; omega),
    List.getElem_zipWith, List.getD_eq_getElem group 0 h1,
    List.getD_eq_getElem paired 0 h2]

theorem lexLe_of_key_le {r1 c1 r2 c2 P : Int} (hc1 : 0 ≤ c1) (hc1P : c1 < P)
    (hc2 : 0 ≤ c2) (hc2P : c2 < P) (h : r1 * P + c1 ≤ r2 * P + c2) :
    lexLe (r1, c1) (r2, c2) := by
  unfold lexLe
  rcases lt_trichotomy r1 r2 with h' | h' | h'
  · exact Or.inl h'
  · refine Or.inr ⟨h', ?_⟩
    subst h'
    linarith
  · exfalso
    have hstep : r2 + 1 ≤ r1 := by omega
    have hmul : (r2 + 1) * P ≤ r1 * P :=
      mul_le_mul_of_nonneg_right hstep (by omega)
    nlinarith

theorem argsort_lex (group paired : List Int) (otherDim numGroups : Int)
    (hlen : group.length = paired.length)
    (hg : ∀ v ∈ group, 0 ≤ v ∧ v < numGroups)
    (hp : ∀ v ∈ paired, 0 ≤ v ∧ v < otherDim)
    (hov : ∀ i : Nat, i < group.length →
      group.getD i 0 * otherDim + paired.getD i 0 < 2 ^ 63) :
    List.Pairwise (fun i j =>
      lexLe (group.getD i 0, paired.getD i 0) (group.getD j 0, paired.getD j 0))
      (argsort (List.zipWith (fun g p => wrapK Kind.Int64 (g * otherDim + p))
        group paired)) := by
  have hkeyslen : (List.zipWith (fun g p => wrapK Kind.Int64 (g * otherDim + p))
      group paired).length = group.length := by
    rw [List.length_zipWith]
    omega
  have hpair_at : ∀ i : Nat, i < group.length →
      0 ≤ paired.getD i 0 ∧ paired.getD i 0 < otherDim := by
    intro i hi
    refine hp _ ?_
    rw [List.getD_eq_getElem paired 0 (by omega)]
    exact List.getElem_mem (by omega)
  have hkey : ∀ i : Nat, i < group.length →
      (List.zipWith (fun g p => wrapK Kind.Int64 (g * otherDim + p))
          group paired).getD i 0
        = group.getD i 0 * otherDim + paired.getD i 0 := by
    intro i hi
    rw [keys_getD group paired otherDim hi (by omega)]
    have hgi : 0 ≤ group.getD i 0 ∧ group.getD i 0 < numGroups := by
      refine hg _ ?_
      rw [List.getD_eq_getElem group 0 hi]
      exact List.getElem_mem hi
    have hpi := hpair_at i hi
    have hmul : 0 ≤ group.getD i 0 * otherDim :=
      mul_nonneg hgi.1 (by omega)
    exact wrapK_Int64_eq (by omega) (hov i hi)
  refine (argsort_sorted _).imp_of_mem ?_
  intro i j hi hj hrel
  have hilen : i < group.length := by
    have := argsort_mem_lt hi
    omega
  have hjlen : j < group.length := by
    have := argsort_mem_lt hj
    omega
  rw [hkey i hilen, hkey j hjlen] at hrel
  exact lexLe_of_key_le (hpair_at i hilen).1 (hpair_at i hilen).2
    (hpair_at j hjlen).1 (hpair_at j hjlen).2 hrel

theorem indexSelect_sorted_of_lex {group paired : List Int} {perm : List Nat}
    (hlex : List.Pairwise (fun i j =>
      lexLe (group.getD i 0, paired.getD i 0)
        (group.getD j 0, paired.getD j 0)) perm) :
    List.Sorted (· ≤ ·) (indexSelect group perm) := by
  rw [List.Sorted, indexSelect, List.pairwise_map]
  refine hlex.imp ?_
  intro i j hij
  unfold lexLe at hij
  rcases hij with h | ⟨h, _⟩
  · exact le_of_lt h
  · exact le_of_eq h

theorem le_getD_of_cnt_le {l : List Int} (hs : List.Sorted (· ≤ ·) l)
    {i : Nat} (hi : i < l.length) {x : Int} (h : cntBelow l x ≤ i) :
    x ≤ l.getD i 0 := by
  by_contra hlt
  have := lt_cntBelow_of_getD_lt hs hi (by omega : l.getD i 0 < x)
  omega

theorem getD_lt_of_lt_cnt {l : List Int} (hs : List.Sorted (· ≤ ·) l)
    {i : Nat} (hi : i < l.length) {x : Int} (h : i < cntBelow l x) :
    l.getD i 0 < x := by
  by_contra hge
  have := cntBelow_le_of_le_getD hs hi (by omega : x ≤ l.getD i 0)
  omega

theorem cooPipeline_lex (group paired : List Int) (otherDim numGroups : Int)
    (hlen : group.length = paired.length)
    (hG0 : 0 ≤ numGroups) (hG : numGroups < 2 ^ 63)
    (hg : ∀ v ∈ group, 0 ≤ v ∧ v < numGroups)
    (hp : ∀ v ∈ paired, 0 ≤ v ∧ v < otherDim)
    (hov : ∀ i : Nat, i < group.length →
      group.getD i 0 * otherDim + paired.getD i 0 < 2 ^ 63) :
    ∃ res, cooPipeline Kind.Int64 Device.Cpu group paired otherDim numGroups
        = .ok res ∧
      List.Sorted lexLe ((argsort (List.zipWith
          (fun g p => wrapK Kind.Int64 (g * otherDim + p)) group paired)).map
        (fun i => (group.getD i 0, paired.getD i 0))) ∧
      (∀ g i j : Nat, (g : Int) < numGroups →
        (res.ptrs.data.getD g 0).toNat ≤ i → i ≤ j →
        j < (res.ptrs.data.getD (g + 1) 0).toNat →
        res.indices.data.getD i 0 ≤ res.indices.data.getD j 0) := by
  have hkeyslen : (List.zipWith (fun g p => wrapK Kind.Int64 (g * otherDim + p))
      group paired).length = group.length := by
    rw [List.length_zipWith]
    omega
  have hpermlen : (argsort (List.zipWith
      (fun g p => wrapK Kind.Int64 (g * otherDim + p)) group paired)).length
      = group.length := by
    rw [argsort_length, hkeyslen]
  have hlex := argsort_lex group paired otherDim numGroups hlen hg hp hov
  have hsortedSel := indexSelect_sorted_of_lex hlex
  have hsellen : (indexSelect group (argsort (List.zipWith
      (fun g p => wrapK Kind.Int64 (g * otherDim + p)) group paired))).length
      = group.length := by
    rw [indexSelect_length, hpermlen]
  have hselg : ∀ v ∈ indexSelect group (argsort (List.zipWith
      (fun g p => wrapK Kind.Int64 (g * otherDim + p)) group paired)),
      0 ≤ v ∧ v < numGroups := by
    refine indexSelect_forall ?_ hg
    intro i hi
    have := argsort_mem_lt hi
    omega
  obtain ⟨buf, hcore, hbuflen, hvals⟩ :=
    ind2ptrCore_sorted hsortedSel hG0 hG hselg
  have hok := ind2ptr_ok (t := ⟨Kind.Int64, Device.Cpu, indexSelect group
      (argsort (List.zipWith (fun g p => wrapK Kind.Int64 (g * otherDim + p))
        group paired))⟩) rfl rfl hG0 hcore
  have hpipe := cooPipeline_ok hok
  refine ⟨_, hpipe, ?_, ?_⟩
  · rw [List.Sorted, List.pairwise_map]
    exact hlex
  · intro g i j hgG hgi hij hj
    show (indexSelect paired (argsort (List.zipWith
        (fun g p => wrapK Kind.Int64 (g * otherDim + p)) group paired))).getD i 0
      ≤ (indexSelect paired (argsort (List.zipWith
        (fun g p => wrapK Kind.Int64 (g * otherDim + p)) group paired))).getD j 0
    have hg1 : ((g : Int)) + 1 ≤ numGroups := by omega
    have hptr_g : (buf.map (fun o => o.getD 0)).getD g 0 =
        (cntBelow (indexSelect group (argsort (List.zipWith
          (fun g p => wrapK Kind.Int64 (g * otherDim + p)) group paired)))
          (g : Int) : Int) :=
      map_getD_of_getD (hvals g (by omega)) (by omega)
    have hptr_g1 : (buf.map (fun o => o.getD 0)).getD (g + 1) 0 =
        (cntBelow (indexSelect group (argsort (List.zipWith
          (fun g p => wrapK Kind.Int64 (g * otherDim + p)) group paired)))
          ((g + 1 : Nat) : Int) : Int) :=
      map_getD_of_getD (hvals (g + 1) (by push_cast; omega)) (by omega)
    have hgi' : cntBelow (indexSelect group (argsort (List.zipWith
        (fun g p => wrapK Kind.Int64 (g * otherDim + p)) group paired)))
        (g : Int) ≤ i := by
      rw [hptr_g] at hgi
      omega
    have hj' : j < cntBelow (indexSelect group (argsort (List.zipWith
        (fun g p => wrapK Kind.Int64 (g * otherDim + p)) group paired)))
        ((g + 1 : Nat) : Int) := by
      rw [hptr_g1] at hj
      omega
    have hjlen : j < group.length := by
      have := cntBelow_le_length (indexSelect group (argsort (List.zipWith
        (fun g p => wrapK Kind.Int64 (g * otherDim + p)) group paired)))
        ((g + 1 : Nat) : Int)
      omega
    have hilen : i < group.length := by omega
    have hsel_i_lo := le_getD_of_cnt_le hsortedSel (by omega) hgi'
    have hsel_j_hi := getD_lt_of_lt_cnt hsortedSel (by omega) hj'
    have hsel_i_hi := getD_lt_of_lt_cnt hsortedSel
      (i := i) (by omega) (by omega : i < cntBelow _ ((g + 1 : Nat) : Int))
    have hsel_j_lo := le_getD_of_cnt_le hsortedSel
      (i := j) (by omega) (by omega : cntBelow _ ((g : Nat) : Int) ≤ j)
    rcases Nat.eq_or_lt_of_le hij with heqij | hltij
    · rw [heqij]
    · have hsel_at : ∀ t : Nat, t < group.length →
          (indexSelect group (argsort (List.zipWith
            (fun g p => wrapK Kind.Int64 (g * otherDim + p)) group paired))).getD t 0
          = group.getD ((argsort (List.zipWith
            (fun g p => wrapK Kind.Int64 (g * otherDim + p)) group paired)).getD t 0) 0 := by
        intro t ht
        rw [List.getD_eq_getElem _ 0 (by omega)]
        unfold indexSelect
        rw [List.getElem_map,
          List.getD_eq_getElem _ 0 (show t < (argsort (List.zipWith
            (fun g p => wrapK Kind.Int64 (g * otherDim + p)) group paired)).length
            by omega)]
      have hind_at : ∀ t : Nat, t < group.length →
          (indexSelect paired (argsort (List.zipWith
            (fun g p => wrapK Kind.Int64 (g * otherDim + p)) group paired))).getD t 0
          = paired.getD ((argsort (List.zipWith
            (fun g p => wrapK Kind.Int64 (g * otherDim + p)) group paired)).getD t 0) 0 := by
        intro t ht
        rw [List.getD_eq_getElem _ 0
          (by rw [indexSelect_length, hpermlen]; omega)]
        unfold indexSelect
        rw [List.getElem_map,
          List.getD_eq_getElem _ 0 (show t < (argsort (List.zipWith
            (fun g p => wrapK Kind.Int64 (g * otherDim + p)) group paired)).length
            by omega)]
      have hlex_at := List.pairwise_iff_getElem.mp hlex i j
        (by omega) (by omega) hltij
      rw [← List.getD_eq_getElem _ 0 (show i < (argsort (List.zipWith
          (fun g p => wrapK Kind.Int64 (g * otherDim + p)) group paired)).length
          by omega),
        ← List.getD_eq_getElem _ 0 (show j < (argsort (List.zipWith
          (fun g p => wrapK Kind.Int64 (g * otherDim + p)) group paired)).length
          by omega)] at hlex_at
      unfold lexLe at hlex_at
      rw [hind_at i hilen, hind_at j hjlen]
      rcases hlex_at with hlt | ⟨_, hle⟩
      · exfalso
        rw [← hsel_at i hilen, ← hsel_at j hjlen] at hlt
        omega
      · exact hle

/-- C2: for a CPU 64-bit Coordinate Store with in-range coordinates whose
linearized sort keys do not overflow `i64`, the conversion orders the
edges ascending lexicographically by (group key, paired key) — row-grouped
uses `row * num_cols + col`, column-grouped uses `col * num_rows + row` —
and consequently each stored index sub-range
`index[pointer[g] .. pointer[g+1]]` is ascending in the paired key. -/
theorem C2_conversion_lex (ty : SparseGraphType) (s : CooGraphStorage)
    (hd : s.device = Device.Cpu) (hk : s.kind = Kind.Int64)
    (hrow : ∀ v ∈ s.rowData, 0 ≤ v ∧ v < s.size.1)
    (hcol : ∀ v ∈ s.colData, 0 ≤ v ∧ v < s.size.2)
    (hR0 : 0 ≤ s.size.1) (hR : s.size.1 < 2 ^ 63)
    (hC0 : 0 ≤ s.size.2) (hC : s.size.2 < 2 ^ 63)
    (hov : ∀ i : Nat, i < s.rowData.length →
      ((match ty with
        | SparseGraphType.Csr => s.rowData.getD i 0 * s.size.2 + s.colData.getD i 0
        | SparseGraphType.Csc => s.colData.getD i 0 * s.size.1 + s.rowData.getD i 0
        : Int))
        < 2 ^ 63) :
    ∃ res, tryFromCoo ty s = .ok res ∧
      List.Sorted lexLe ((argsort (match ty with
          | SparseGraphType.Csr => List.zipWith
              (fun g p => wrapK Kind.Int64 (g * s.size.2 + p)) s.rowData s.colData
          | SparseGraphType.Csc => List.zipWith
              (fun g p => wrapK Kind.Int64 (g * s.size.1 + p)) s.colData s.rowData)).map
        (fun i => (match ty with
          | SparseGraphType.Csr => ((s.rowData.getD i 0, s.colData.getD i 0) : Int × Int)
          | SparseGraphType.Csc => ((s.colData.getD i 0, s.rowData.getD i 0) : Int × Int)))) ∧
      (∀ g i j : Nat, (g : Int) < (match ty with
          | SparseGraphType.Csr => s.size.1
          | SparseGraphType.Csc => s.size.2) →
        (res.ptrs.data.getD g 0).toNat ≤ i → i ≤ j →
        j < (res.ptrs.data.getD (g + 1) 0).toNat →
        res.indices.data.getD i 0 ≤ res.indices.data.getD j 0) := by
  cases ty
  case Csr =>
    have heq : tryFromCoo SparseGraphType.Csr s =
        cooPipeline Kind.Int64 Device.Cpu s.rowData s.colData s.size.2 s.size.1 := by
      simp only [tryFromCoo]
      rw [hk, hd]
    obtain ⟨res, hres, hsortlex, hranges⟩ :=
      cooPipeline_lex s.rowData s.colData s.size.2 s.size.1 s.hlen hR0 hR
        hrow hcol hov
    exact ⟨res, by rw [heq]; exact hres, hsortlex, hranges⟩
  case Csc =>
    have heq : tryFromCoo SparseGraphType.Csc s =
        cooPipeline Kind.Int64 Device.Cpu s.colData s.rowData s.size.1 s.size.2 := by
      simp only [tryFromCoo]
      rw [hk, hd]
    obtain ⟨res, hres, hsortlex, hranges⟩ :=
      cooPipeline_lex s.colData s.rowData s.size.1 s.size.2 s.hlen.symm hC0 hC
        hcol hrow (fun i hi => hov i (by rw [s.hlen]; exact hi))
    exact ⟨res, by rw [heq]; exact hres, hsortlex, hranges⟩

/-- C2 witness: a concrete row-grouped conversion with duplicate group
keys. -/
theorem C2_conversion_lex_witness :
    ∃ res, tryFromCoo .Csr
        ⟨Kind.Int64, Device.Cpu, [1, 0, 1, 0], [0, 2, 1, 2], (2, 3), rfl⟩ =
      .ok res ∧
      List.Sorted lexLe ((argsort (List.zipWith
          (fun g p => wrapK Kind.Int64 (g * 3 + p))
          ([1, 0, 1, 0] : List Int) ([0, 2, 1, 2] : List Int))).map
        (fun i => ((([1, 0, 1, 0] : List Int).getD i 0,
          ([0, 2, 1, 2] : List Int).getD i 0) : Int × Int))) ∧
      (∀ g i j : Nat, (g : Int) < 2 →
        (res.ptrs.data.getD g 0).toNat ≤ i → i ≤ j →
        j < (res.ptrs.data.getD (g + 1) 0).toNat →
        res.indices.data.getD i 0 ≤ res.indices.data.getD j 0) :=
  C2_conversion_lex .Csr
    ⟨Kind.Int64, Device.Cpu, [1, 0, 1, 0], [0, 2, 1, 2], (2, 3), rfl⟩
    rfl rfl (by decide) (by decide) (by decide) (by decide) (by decide) (by decide)
    (by decide)

end Storage
